import Mathlib

/-!
Verification development for the boolean-evaluator repository.

The repository holds two small programs:
- `sat_solver.py`: a semantic-tableau satisfiability solver over formulas
  built from literals, conjunction and disjunction, with a persistent
  (copy-on-add) binding store `ImmutableMap`, the conflict-checked insertion
  `add_literal`, the recursive worklist procedure `solve`, and the top-level
  entry point `solve_one`.
- `boolean_evaluator.py`: a ground boolean-expression evaluator `eval_expr`
  over the grammar True | False | And | Or.

Below these are embedded shallowly: Python classes become inductive types,
the Python `None` failure signal becomes `Option.none`, the `ImmutableMap`
dict becomes an association list queried front-first (so `add` has exactly
the dict's overwrite semantics through `contains`/`get`), and the implicit
`return None` fall-through of `eval_expr` becomes an explicit `none`.
-/

/-- The formula grammar of `sat_solver.py`:
`e ::= Literal(x, b) | And(e1, e2) | Or(e1, e2)` where variables are
strings and `b` is the literal's polarity (`is_positive`). -/
inductive Expr : Type where
  | Literal : String → Bool → Expr
  | And : Expr → Expr → Expr
  | Or : Expr → Expr → Expr
  deriving DecidableEq

/-- Node count of a formula: literals count 1, each connective counts
1 plus its children.  This is the termination measure of `solve`. -/
def Expr.size : Expr → Nat
  | .Literal _ _ => 1
  | .And l r => l.size + r.size + 1
  | .Or l r => l.size + r.size + 1

/-- Total node count of a worklist of formulas. -/
def sizes : List Expr → Nat
  | [] => 0
  | f :: rest => f.size + sizes rest

/-- Count of And/Or connective nodes of a formula (literals count 0);
the measure named by the spec's termination note. -/
def Expr.connCount : Expr → Nat
  | .Literal _ _ => 0
  | .And l r => l.connCount + r.connCount + 1
  | .Or l r => l.connCount + r.connCount + 1

/-- Total count of And/Or connective nodes across a worklist. -/
def connSum : List Expr → Nat
  | [] => 0
  | f :: rest => f.connCount + connSum rest

/-- Whether the variable `key` occurs in a formula. -/
def occursIn (key : String) : Expr → Bool
  | .Literal v _ => v = key
  | .And l r => occursIn key l || occursIn key r
  | .Or l r => occursIn key l || occursIn key r

/-- Standard boolean semantics of Literal/And/Or under a total valuation:
a positive literal holds when its variable does, a negative literal when
it does not; And/Or are boolean conjunction/disjunction. -/
def evalFormula (rho : String → Bool) : Expr → Bool
  | .Literal v pos => if pos then rho v else !(rho v)
  | .And l r => evalFormula rho l && evalFormula rho r
  | .Or l r => evalFormula rho l || evalFormula rho r

/-- First-match lookup in an association list; models lookup in the
Python dict underlying `ImmutableMap` (`none` models a raised KeyError). -/
def lookupList : List (String × Bool) → String → Option Bool
  | [], _ => none
  | (k, v) :: rest, key => if key = k then some v else lookupList rest key

/-- The persistent binding store of `sat_solver.py`: an immutable mapping
from variables to booleans (`self.mapping`, a Python dict, modelled as an
association list read front-first). -/
structure ImmutableMap : Type where
  mapping : List (String × Bool)
  deriving DecidableEq

/-- The store produced by `ImmutableMap()`: no bindings. -/
def ImmutableMap.empty : ImmutableMap := ⟨[]⟩

/-- `ImmutableMap.add`: returns a new store in which `key` maps to
`value` and every other key keeps its binding; the receiver is unchanged
(the Python code copies the dict and sets the key; prepending to the
front-first association list realizes the same `contains`/`get` view). -/
def ImmutableMap.add (m : ImmutableMap) (key : String) (value : Bool) : ImmutableMap :=
  ⟨(key, value) :: m.mapping⟩

/-- `ImmutableMap.contains`: `key in self.mapping`. -/
def ImmutableMap.contains (m : ImmutableMap) (key : String) : Bool :=
  (lookupList m.mapping key).isSome

/-- `ImmutableMap.get`: `self.mapping[key]`; `some` of the recorded value
when the key is bound, `none` modelling the KeyError raised on an unbound
key. -/
def ImmutableMap.get (m : ImmutableMap) (key : String) : Option Bool :=
  lookupList m.mapping key

/-- `add_literal` (the spec's `try_assign`): conflict-checked insertion.
If the store contains the variable, return it unchanged when the recorded
boolean equals the given one and the conflict signal `none` otherwise;
if it does not, return the extended store. -/
def add_literal (immutable_map : ImmutableMap) (var : String) (boolean : Bool) :
    Option ImmutableMap :=
  if immutable_map.contains var then
    if immutable_map.get var = some boolean then
      some immutable_map
    else
      none
  else
    some (immutable_map.add var boolean)

/-- The tableau procedure `solve` of `sat_solver.py`, over a worklist of
goal formulas (the Python `Nil`/`Cons` list becomes a Lean list) and a
binding store; `none` is the Unsatisfiable signal. -/
def solve : List Expr → ImmutableMap → Option ImmutableMap
  | [], literals => some literals
  | Expr.Literal v p :: rest, literals =>
    match add_literal literals v p with
    | none => none
    | some result => solve rest result
  | Expr.And l r :: rest, literals =>
    solve (l :: r :: rest) literals
  | Expr.Or l r :: rest, literals =>
    match solve (l :: rest) literals with
    | none => solve (r :: rest) literals
    | some left_side => some left_side
termination_by goals _ => sizes goals
decreasing_by
  all_goals simp only [sizes, Expr.size]
  all_goals omega

/-- Top-level entry point `solve_one`: a singleton worklist and the empty
store. -/
def solve_one (formula : Expr) : Option ImmutableMap :=
  solve [formula] ImmutableMap.empty

/-- Fuel-instrumented counterpart of `solve`: performs exactly the same
case analysis but consumes one unit of fuel per call; the outer `none`
means the fuel ran out before the procedure reached a result, while
`some r` means the procedure returned `r` within the given number of
calls. -/
def solveFuel : Nat → List Expr → ImmutableMap → Option (Option ImmutableMap)
  | 0, _, _ => none
  | _ + 1, [], literals => some (some literals)
  | n + 1, Expr.Literal v p :: rest, literals =>
    match add_literal literals v p with
    | none => some none
    | some result => solveFuel n rest result
  | n + 1, Expr.And l r :: rest, literals =>
    solveFuel n (l :: r :: rest) literals
  | n + 1, Expr.Or l r :: rest, literals =>
    match solveFuel n (l :: rest) literals with
    | none => none
    | some none => solveFuel n (r :: rest) literals
    | some (some left_side) => some (some left_side)

/-- Rendering of a Binop in `sat_solver.py`:
`"({} {} {})".format(left, op_string, right)`. -/
def renderBinop (l r op : String) : String :=
  "(" ++ l ++ " " ++ op ++ " " ++ r ++ ")"

/-- The `__str__` rendering of formulas: a positive literal is the bare
variable name, a negative literal the name prefixed with `!`, and a
Binop uses `renderBinop` with `op_string` `&&` for And and `||` for Or. -/
def Expr.render : Expr → String
  | .Literal v pos => if pos then v else "!" ++ v
  | .And l r => renderBinop l.render r.render "&&"
  | .Or l r => renderBinop l.render r.render "||"

/-- The ground expression grammar of `boolean_evaluator.py`:
`e ::= True | False | And(e1, e2) | Or(e1, e2)`. -/
inductive GExpr : Type where
  | tt : GExpr
  | ff : GExpr
  | And : GExpr → GExpr → GExpr
  | Or : GExpr → GExpr → GExpr
  deriving DecidableEq

/-- `eval_expr` of `boolean_evaluator.py`, return value in
`Option Bool`: `some` models an explicit Python `return True`/`return
False`, `none` models the implicit `return None` reached when control
falls off the end of the function.  In the And branch the code returns
`eval_expr(right)` only when `eval_expr(left) == True` and otherwise
falls through; in the Or branch it returns `eval_expr(right)` when
`eval_expr(left) == False` and `True` otherwise. -/
def eval_expr : GExpr → Option Bool
  | GExpr.tt => some true
  | GExpr.ff => some false
  | GExpr.And l r =>
    if eval_expr l = some true then eval_expr r else none
  | GExpr.Or l r =>
    if eval_expr l = some false then eval_expr r else some true

/-- Standard boolean semantics of the ground grammar. -/
def gEval : GExpr → Bool
  | GExpr.tt => true
  | GExpr.ff => false
  | GExpr.And l r => gEval l && gEval r
  | GExpr.Or l r => gEval l || gEval r

/-! Helper lemmas about the binding store. -/

theorem ImmutableMap.get_add_self (m : ImmutableMap) (k : String) (v : Bool) :
    (m.add k v).get k = some v := by
  simp [ImmutableMap.get, ImmutableMap.add, lookupList]

theorem ImmutableMap.get_add_of_ne (m : ImmutableMap) (k : String) (v : Bool) (k' : String)
    (h : k' ≠ k) : (m.add k v).get k' = m.get k' := by
  simp [ImmutableMap.get, ImmutableMap.add, lookupList, h]

theorem ImmutableMap.get_some_of_contains {m : ImmutableMap} {k : String}
    (h : m.contains k = true) : ∃ c, m.get k = some c := by
  simp [ImmutableMap.contains] at h
  exact Option.isSome_iff_exists.mp h

theorem ImmutableMap.get_none_of_not_contains {m : ImmutableMap} {k : String}
    (h : m.contains k = false) : m.get k = none := by
  unfold ImmutableMap.contains at h
  unfold ImmutableMap.get
  cases hg : lookupList m.mapping k with
  | none => rfl
  | some c =>
    rw [hg] at h
    simp at h

theorem ImmutableMap.contains_true_of_get_some {m : ImmutableMap} {k : String} {c : Bool}
    (h : m.get k = some c) : m.contains k = true := by
  unfold ImmutableMap.get at h
  unfold ImmutableMap.contains
  rw [h]
  rfl

theorem ImmutableMap.contains_add_of_ne (m : ImmutableMap) (v : String) (b : Bool) (k : String)
    (h : k ≠ v) : (m.add v b).contains k = m.contains k := by
  unfold ImmutableMap.contains
  have hget := ImmutableMap.get_add_of_ne m v b k h
  unfold ImmutableMap.get at hget
  rw [hget]

/-! Helper lemmas about conflict-checked insertion. -/

theorem add_literal_some_get {s s' : ImmutableMap} {v : String} {b : Bool}
    (h : add_literal s v b = some s') : s'.get v = some b := by
  unfold add_literal at h
  split at h
  · split at h
    · rename_i hc hg
      injection h with h
      subst h
      exact hg
    · exact Option.noConfusion h
  · injection h with h
    subst h
    exact ImmutableMap.get_add_self s v b

theorem add_literal_some_mono {s s' : ImmutableMap} {v : String} {b : Bool}
    (h : add_literal s v b = some s') :
    ∀ k c, s.get k = some c → s'.get k = some c := by
  intro k c hk
  unfold add_literal at h
  split at h
  · split at h
    · injection h with h
      subst h
      exact hk
    · exact Option.noConfusion h
  · rename_i hcon
    injection h with h
    subst h
    by_cases hkv : k = v
    · subst hkv
      have hnone : s.get k = none :=
        ImmutableMap.get_none_of_not_contains (Bool.not_eq_true _ ▸ hcon)
      rw [hnone] at hk
      exact Option.noConfusion hk
    · rw [ImmutableMap.get_add_of_ne s v b k hkv]
      exact hk

theorem add_literal_some_new {s s' : ImmutableMap} {v : String} {b : Bool}
    (h : add_literal s v b = some s') :
    ∀ k, s.contains k = false → s'.contains k = true → k = v := by
  intro k h1 h2
  unfold add_literal at h
  split at h
  · split at h
    · injection h with h
      subst h
      rw [h1] at h2
      exact Bool.noConfusion h2
    · exact Option.noConfusion h
  · injection h with h
    subst h
    by_contra hkv
    rw [ImmutableMap.contains_add_of_ne s v b k hkv, h1] at h2
    exact Bool.noConfusion h2

/-! Termination: the fuel-instrumented procedure agrees with `solve`. -/

theorem Expr.size_pos (f : Expr) : 1 ≤ f.size := by
  cases f <;> (simp only [Expr.size]; omega)

theorem solveFuel_correct : ∀ (n : Nat) (g : List Expr) (s : ImmutableMap),
    sizes g < n → solveFuel n g s = some (solve g s) := by
  intro n
  induction n with
  | zero =>
    intro g s h
    exact absurd h (by omega)
  | succ n ih =>
    intro g s h
    cases g with
    | nil =>
      rw [solve]
      rfl
    | cons f rest =>
      cases f with
      | Literal v p =>
        have hrest : sizes rest < n := by
          simp [sizes, Expr.size] at h
          omega
        cases hadd : add_literal s v p with
        | none => rw [solveFuel, hadd, solve, hadd]
        | some result =>
          rw [solveFuel, hadd, solve, hadd]
          exact ih rest result hrest
      | And l r =>
        have hx : sizes (l :: r :: rest) < n := by
          simp [sizes, Expr.size] at h ⊢
          omega
        rw [solveFuel, solve]
        exact ih _ _ hx
      | Or l r =>
        have hsl := Expr.size_pos l
        have hsr := Expr.size_pos r
        have hl : sizes (l :: rest) < n := by
          simp [sizes, Expr.size] at h ⊢
          omega
        have hr : sizes (r :: rest) < n := by
          simp [sizes, Expr.size] at h ⊢
          omega
        rw [solveFuel, solve, ih (l :: rest) s hl]
        cases hleft : solve (l :: rest) s with
        | none => exact ih _ _ hr
        | some left_side => rfl

theorem solve_eq_of_fuel {n : Nat} {g : List Expr} {s : ImmutableMap} {r : Option ImmutableMap}
    (h : solveFuel n g s = some r) (hn : sizes g < n) : solve g s = r := by
  have h2 := solveFuel_correct n g s hn
  rw [h] at h2
  exact (Option.some.inj h2).symm

/-! Main invariant of `solve`: the returned store extends the input store,
binds new variables only for variables occurring in the goals, and makes
every goal formula true under any valuation that agrees with it. -/

theorem solve_main (g : List Expr) (s : ImmutableMap) :
    ∀ m : ImmutableMap, solve g s = some m →
      ((∀ k c, s.get k = some c → m.get k = some c) ∧
       (∀ k, s.contains k = false → m.contains k = true →
          ∃ f, f ∈ g ∧ occursIn k f = true) ∧
       (∀ rho : String → Bool, (∀ k c, m.get k = some c → rho k = c) →
          ∀ f, f ∈ g → evalFormula rho f = true)) := by
  induction g, s using solve.induct with
  | case1 literals =>
    intro m h
    rw [solve] at h
    injection h with h
    subst h
    refine ⟨fun k c hk => hk, fun k h1 h2 => absurd h2 (by simp [h1]), ?_⟩
    intro rho _ f hf
    exact absurd hf (by simp)
  | case2 v p rest literals hadd =>
    intro m h
    rw [solve, hadd] at h
    exact Option.noConfusion h
  | case3 v p rest literals result hadd ih =>
    intro m h
    rw [solve, hadd] at h
    obtain ⟨ih1, ih2, ih3⟩ := ih m h
    refine ⟨?_, ?_, ?_⟩
    · intro k c hk
      exact ih1 k c (add_literal_some_mono hadd k c hk)
    · intro k h1 h2
      cases hres : result.contains k with
      | false =>
        obtain ⟨f, hf, ho⟩ := ih2 k hres h2
        exact ⟨f, List.mem_cons_of_mem _ hf, ho⟩
      | true =>
        have hkv : k = v := add_literal_some_new hadd k h1 hres
        refine ⟨Expr.Literal v p, List.mem_cons_self _ _, ?_⟩
        simp [occursIn, hkv]
    · intro rho hrho f hf
      rcases List.mem_cons.mp hf with hf | hf
      · subst hf
        have hv : m.get v = some p := ih1 v p (add_literal_some_get hadd)
        have hrv : rho v = p := hrho v p hv
        cases p <;> simp [evalFormula, hrv]
      · exact ih3 rho hrho f hf
  | case4 l r rest literals ih =>
    intro m h
    rw [solve] at h
    obtain ⟨ih1, ih2, ih3⟩ := ih m h
    refine ⟨ih1, ?_, ?_⟩
    · intro k h1 h2
      obtain ⟨f, hf, ho⟩ := ih2 k h1 h2
      rcases List.mem_cons.mp hf with hf | hf
      · refine ⟨Expr.And l r, List.mem_cons_self _ _, ?_⟩
        have hol : occursIn k l = true := by rw [← hf]; exact ho
        simp [occursIn, hol]
      · rcases List.mem_cons.mp hf with hf | hf
        · refine ⟨Expr.And l r, List.mem_cons_self _ _, ?_⟩
          have hor : occursIn k r = true := by rw [← hf]; exact ho
          simp [occursIn, hor]
        · exact ⟨f, List.mem_cons_of_mem _ hf, ho⟩
    · intro rho hrho f hf
      rcases List.mem_cons.mp hf with hf | hf
      · subst hf
        have hl := ih3 rho hrho l (by simp)
        have hr := ih3 rho hrho r (by simp)
        simp [evalFormula, hl, hr]
      · exact ih3 rho hrho f (by simp [hf])
  | case5 l r rest literals hleft ihl ihr =>
    intro m h
    rw [solve, hleft] at h
    obtain ⟨ih1, ih2, ih3⟩ := ihr m h
    refine ⟨ih1, ?_, ?_⟩
    · intro k h1 h2
      obtain ⟨f, hf, ho⟩ := ih2 k h1 h2
      rcases List.mem_cons.mp hf with hf | hf
      · refine ⟨Expr.Or l r, List.mem_cons_self _ _, ?_⟩
        have hor : occursIn k r = true := by rw [← hf]; exact ho
        simp [occursIn, hor]
      · exact ⟨f, List.mem_cons_of_mem _ hf, ho⟩
    · intro rho hrho f hf
      rcases List.mem_cons.mp hf with hf | hf
      · subst hf
        have hr := ih3 rho hrho r (by simp)
        simp [evalFormula, hr]
      · exact ih3 rho hrho f (by simp [hf])
  | case6 l r rest literals result hleft ihl =>
    intro m h
    rw [solve, hleft] at h
    injection h with h
    subst h
    obtain ⟨ih1, ih2, ih3⟩ := ihl result hleft
    refine ⟨ih1, ?_, ?_⟩
    · intro k h1 h2
      obtain ⟨f, hf, ho⟩ := ih2 k h1 h2
      rcases List.mem_cons.mp hf with hf | hf
      · refine ⟨Expr.Or l r, List.mem_cons_self _ _, ?_⟩
        have hol : occursIn k l = true := by rw [← hf]; exact ho
        simp [occursIn, hol]
      · exact ⟨f, List.mem_cons_of_mem _ hf, ho⟩
    · intro rho hrho f hf
      rcases List.mem_cons.mp hf with hf | hf
      · subst hf
        have hl := ih3 rho hrho l (by simp)
        simp [evalFormula, hl]
      · exact ih3 rho hrho f (by simp [hf])

/-! Claims. -/

/-- Claim C1 (confirmed): soundness of the solver.  If `solve_one` (the
top-level entry point: singleton worklist, empty store) returns a store
`m` rather than the failure signal, then every total valuation that agrees
with `m` on the variables `m` binds (every unassigned variable may take
either value) makes the original formula evaluate to true under the
standard boolean semantics of Literal/And/Or. -/
theorem solve_one_sound (f : Expr) (m : ImmutableMap) (rho : String → Bool)
    (h : solve_one f = some m)
    (hrho : ∀ k c, m.get k = some c → rho k = c) :
    evalFormula rho f = true := by
  have h' : solve [f] ImmutableMap.empty = some m := h
  exact (solve_main [f] ImmutableMap.empty m h').2.2 rho hrho f (by simp)

/-- Witness for C1: on the formula `Literal("a", true)`, `solve_one`
returns the store binding `a` to true, and the all-true valuation (which
agrees with that store) makes the formula evaluate to true. -/
theorem solve_one_sound_witness :
    solve_one (Expr.Literal "a" true) = some (ImmutableMap.empty.add "a" true) ∧
    evalFormula (fun _ => true) (Expr.Literal "a" true) = true := by
  have hfuel : solveFuel 2 [Expr.Literal "a" true] ImmutableMap.empty
      = some (some (ImmutableMap.empty.add "a" true)) := rfl
  have h : solve_one (Expr.Literal "a" true) = some (ImmutableMap.empty.add "a" true) :=
    solve_eq_of_fuel hfuel (by decide)
  refine ⟨h, solve_one_sound _ _ _ h ?_⟩
  intro k c hc
  by_cases hk : k = "a"
  · simp [ImmutableMap.get, ImmutableMap.add, ImmutableMap.empty, lookupList, hk] at hc
    simp [hc]
  · simp [ImmutableMap.get, ImmutableMap.add, ImmutableMap.empty, lookupList, hk] at hc

/-- Claim C2 (confirmed): termination.  For every finite worklist of
finite formulas and every store, the recursive procedure reaches a result
after finitely many recursive calls: running the fuel-instrumented
counterpart of `solve` with `sizes g + 1` units of fuel (one unit per
recursive call) never exhausts the fuel and returns exactly the value of
`solve`. -/
theorem solve_terminates (g : List Expr) (s : ImmutableMap) :
    solveFuel (sizes g + 1) g s = some (solve g s) :=
  solveFuel_correct (sizes g + 1) g s (by omega)

/-- Claim C3 (confirmed): disjunction is left-biased and short-circuiting.
When the head goal is `Or l r`, `solve` first recurses on `l` followed by
the tail with the same store; if that attempt returns a store, that exact
result is returned (the right side is never explored), and if it returns
the failure signal, `solve` recurses on `r` followed by the tail with the
original, unmodified store and returns that result. -/
theorem solve_or_left_bias (l r : Expr) (t : List Expr) (s : ImmutableMap) :
    (∀ m : ImmutableMap, solve (l :: t) s = some m →
      solve (Expr.Or l r :: t) s = some m) ∧
    (solve (l :: t) s = none →
      solve (Expr.Or l r :: t) s = solve (r :: t) s) := by
  constructor
  · intro m h
    rw [solve, h]
  · intro h
    rw [solve, h]

/-- Witness for C3: with a satisfiable left branch (`a ∨ b` on the empty
store) the left result `a ↦ true` is returned; with an unsatisfiable
left branch (`(x ∧ ¬x) ∨ y`) the disjunction reduces to the right
branch on the original empty store. -/
theorem solve_or_left_bias_witness :
    solve [Expr.Or (Expr.Literal "a" true) (Expr.Literal "b" true)] ImmutableMap.empty
      = some (ImmutableMap.empty.add "a" true) ∧
    solve [Expr.Or (Expr.And (Expr.Literal "x" true) (Expr.Literal "x" false))
        (Expr.Literal "y" true)] ImmutableMap.empty
      = solve [Expr.Literal "y" true] ImmutableMap.empty := by
  constructor
  · have hfuel : solveFuel 2 [Expr.Literal "a" true] ImmutableMap.empty
        = some (some (ImmutableMap.empty.add "a" true)) := rfl
    exact (solve_or_left_bias _ _ _ _).1 _ (solve_eq_of_fuel hfuel (by decide))
  · have hfuel : solveFuel 4 [Expr.And (Expr.Literal "x" true) (Expr.Literal "x" false)]
        ImmutableMap.empty = some none := rfl
    exact (solve_or_left_bias _ _ _ _).2 (solve_eq_of_fuel hfuel (by decide))

/-- Claim C4 (confirmed): conflict-checked assignment is correct in all
three cases.  On a store already binding `x` to the opposite of `v`,
`add_literal` yields the conflict signal; on a store already binding `x`
to `v` it yields the store unchanged; and on a store not binding `x` it
yields a new store that binds `x` to `v` and leaves every other binding
unaltered (the original store value itself is unmodified, the extension
being a separate value built by `add`). -/
theorem add_literal_cases (m : ImmutableMap) (x : String) (v : Bool) :
    (m.get x = some (!v) → add_literal m x v = none) ∧
    (m.get x = some v → add_literal m x v = some m) ∧
    (m.contains x = false →
      add_literal m x v = some (m.add x v) ∧
      (m.add x v).get x = some v ∧
      ∀ k, k ≠ x → (m.add x v).get k = m.get k) := by
  refine ⟨?_, ?_, ?_⟩
  · intro h
    have hc : m.contains x = true := ImmutableMap.contains_true_of_get_some h
    cases v <;> simp [add_literal, hc, h]
  · intro h
    have hc : m.contains x = true := ImmutableMap.contains_true_of_get_some h
    simp [add_literal, hc, h]
  · intro h
    refine ⟨by simp [add_literal, h], ImmutableMap.get_add_self m x v, ?_⟩
    intro k hk
    exact ImmutableMap.get_add_of_ne m x v k hk

/-- Witness for C4: on the store `{x ↦ true}`, assigning `x ↦ false`
conflicts, assigning `x ↦ true` returns the store unchanged, and on the
empty store assigning `y ↦ true` returns the extended store. -/
theorem add_literal_cases_witness :
    add_literal (ImmutableMap.empty.add "x" true) "x" false = none ∧
    add_literal (ImmutableMap.empty.add "x" true) "x" true
      = some (ImmutableMap.empty.add "x" true) ∧
    add_literal ImmutableMap.empty "y" true = some (ImmutableMap.empty.add "y" true) :=
  ⟨(add_literal_cases (ImmutableMap.empty.add "x" true) "x" false).1 rfl,
   (add_literal_cases (ImmutableMap.empty.add "x" true) "x" true).2.1 rfl,
   ((add_literal_cases ImmutableMap.empty "y" true).2.2 rfl).1⟩

/-- Counterexample to Claim C5 as stated: on the literal step, the total
count of And/Or connective nodes in the worklist does not decrease by
exactly one.  `solve` on the worklist `[Literal("x", true)]` with the
empty store takes a non-terminal recursive step to the empty worklist
(with the extended store), yet the connective count is 0 before and 0
after the step, not one less. -/
theorem solve_conn_measure_cex :
    connSum [Expr.Literal "x" true] = 0 ∧
    connSum ([] : List Expr) = 0 ∧
    solve [Expr.Literal "x" true] ImmutableMap.empty
      = solve [] (ImmutableMap.empty.add "x" true) ∧
    connSum ([] : List Expr) + 1 ≠ connSum [Expr.Literal "x" true] := by
  refine ⟨rfl, rfl, ?_, by decide⟩
  have hfuel : solveFuel 2 [Expr.Literal "x" true] ImmutableMap.empty
      = some (some (ImmutableMap.empty.add "x" true)) := rfl
  have h1 : solve [Expr.Literal "x" true] ImmutableMap.empty
      = some (ImmutableMap.empty.add "x" true) := solve_eq_of_fuel hfuel (by decide)
  have h2 : solve [] (ImmutableMap.empty.add "x" true)
      = some (ImmutableMap.empty.add "x" true) := by rw [solve]
  rw [h1, h2]

/-- Claim C5 (amended): on every non-terminal recursive step of `solve`,
the total count of nodes (And/Or connectives and literals together)
remaining across all goals in the worklist strictly decreases — by
exactly one on a literal or conjunction step and by at least one on a
disjunction step (the connective count alone does not decrease on a
literal step). -/
theorem solve_step_size_decrease :
    (∀ (v : String) (p : Bool) (t : List Expr) (s s' : ImmutableMap),
      add_literal s v p = some s' →
        solve (Expr.Literal v p :: t) s = solve t s' ∧
        sizes (Expr.Literal v p :: t) = sizes t + 1) ∧
    (∀ (l r : Expr) (t : List Expr) (s : ImmutableMap),
      solve (Expr.And l r :: t) s = solve (l :: r :: t) s ∧
      sizes (Expr.And l r :: t) = sizes (l :: r :: t) + 1) ∧
    (∀ (l r : Expr) (t : List Expr) (s : ImmutableMap),
      sizes (l :: t) < sizes (Expr.Or l r :: t) ∧
      sizes (r :: t) < sizes (Expr.Or l r :: t) ∧
      (solve (l :: t) s = none →
        solve (Expr.Or l r :: t) s = solve (r :: t) s) ∧
      (∀ m : ImmutableMap, solve (l :: t) s = some m →
        solve (Expr.Or l r :: t) s = some m)) := by
  refine ⟨?_, ?_, ?_⟩
  · intro v p t s s' h
    constructor
    · rw [solve, h]
    · simp only [sizes, Expr.size]
      omega
  · intro l r t s
    constructor
    · rw [solve]
    · simp only [sizes, Expr.size]
      omega
  · intro l r t s
    have hsl := Expr.size_pos l
    have hsr := Expr.size_pos r
    refine ⟨?_, ?_, ?_, ?_⟩
    · simp only [sizes, Expr.size]
      omega
    · simp only [sizes, Expr.size]
      omega
    · intro h
      rw [solve, h]
    · intro m h
      rw [solve, h]

/-- Witness for C5 (amended): the literal step taken by `solve` from the
worklist `[Literal("x", true)]` recurses on the empty worklist, whose
total node count is one less. -/
theorem solve_step_size_decrease_witness :
    solve [Expr.Literal "x" true] ImmutableMap.empty
      = solve [] (ImmutableMap.empty.add "x" true) ∧
    sizes [Expr.Literal "x" true] = sizes [] + 1 :=
  solve_step_size_decrease.1 "x" true [] ImmutableMap.empty
    (ImmutableMap.empty.add "x" true) rfl

/-- Claim C6 (confirmed): concrete left-bias contract.  On the formula
`And(Or(Literal("a", true), Literal("b", false)), Literal("b", true))`,
`solve_one` returns a satisfying assignment whose bindings are exactly
`a ↦ true, b ↦ true` (the store built by adding `a ↦ true` then
`b ↦ true` to the empty store — the left Or branch is tried first and
succeeds). -/
theorem solve_one_concrete_left_bias :
    solve_one (Expr.And (Expr.Or (Expr.Literal "a" true) (Expr.Literal "b" false))
        (Expr.Literal "b" true))
      = some ((ImmutableMap.empty.add "a" true).add "b" true) ∧
    ((ImmutableMap.empty.add "a" true).add "b" true).get "a" = some true ∧
    ((ImmutableMap.empty.add "a" true).add "b" true).get "b" = some true := by
  refine ⟨?_, rfl, rfl⟩
  have hfuel : solveFuel 6
      [Expr.And (Expr.Or (Expr.Literal "a" true) (Expr.Literal "b" false))
        (Expr.Literal "b" true)] ImmutableMap.empty
      = some (some ((ImmutableMap.empty.add "a" true).add "b" true)) := rfl
  exact solve_eq_of_fuel hfuel (by decide)

/-- Counterexample to Claim C7 as stated: the parenthetical "only
truthiness coincides with the standard semantics" fails.  On
`Or(And(False, True), False)` the code's `eval_expr` returns `True`
(because the inner `And` falls through to `None`, and `None == False`
is false, so the Or branch takes its else arm), while the standard
boolean semantics of the same expression is false — so even truthiness
diverges. -/
theorem eval_expr_truthiness_cex :
    eval_expr (GExpr.Or (GExpr.And GExpr.ff GExpr.tt) GExpr.ff) = some true ∧
    gEval (GExpr.Or (GExpr.And GExpr.ff GExpr.tt) GExpr.ff) = false :=
  ⟨rfl, rfl⟩

/-- Claim C7 (amended): `eval_expr` does not always return a Boolean.
Whenever the left operand of an `And` does not evaluate (under
`eval_expr` itself) to `True`, the function falls through without a
return and yields `None`; in particular `And(False, True)` yields `None`
instead of `False`, violating the documented "returns True or False"
contract — and truthiness does not always coincide with the standard
semantics either, as `Or(And(False, True), False)` yields `True` where
the standard semantics gives false. -/
theorem eval_expr_falls_through :
    (∀ l r : GExpr, eval_expr l ≠ some true → eval_expr (GExpr.And l r) = none) ∧
    eval_expr (GExpr.And GExpr.ff GExpr.tt) = none ∧
    (¬ ∃ b : Bool, eval_expr (GExpr.And GExpr.ff GExpr.tt) = some b) ∧
    gEval (GExpr.And GExpr.ff GExpr.tt) = false := by
    refine ⟨?_, rfl, by decide, rfl⟩
    intro l r h
    simp [eval_expr, h]

/-- Witness for C7 (amended): at `l = False`, `r = True` the hypothesis
holds (`eval_expr False = some false ≠ some true`) and the And falls
through to `None`. -/
theorem eval_expr_falls_through_witness :
    eval_expr (GExpr.And GExpr.ff GExpr.tt) = none :=
  eval_expr_falls_through.1 GExpr.ff GExpr.tt (by decide)

/-- Claim C8 (confirmed): store-extension invariant.  If `solve g s`
returns a store `m`, then `m` keeps every binding of `s` with the same
value, and every binding of `m` absent from `s` is for a variable
occurring in some formula of `g`; consequently every variable bound in a
`solve_one` result occurs in the input formula. -/
theorem solve_extends_and_new_vars :
    (∀ (g : List Expr) (s m : ImmutableMap), solve g s = some m →
      (∀ k c, s.get k = some c → m.get k = some c) ∧
      (∀ k, s.contains k = false → m.contains k = true →
        ∃ f, f ∈ g ∧ occursIn k f = true)) ∧
    (∀ (f : Expr) (m : ImmutableMap), solve_one f = some m →
      ∀ k, m.contains k = true → occursIn k f = true) := by
  constructor
  · intro g s m h
    exact ⟨(solve_main g s m h).1, (solve_main g s m h).2.1⟩
  · intro f m h k hk
    have h' : solve [f] ImmutableMap.empty = some m := h
    obtain ⟨f', hf', ho⟩ := (solve_main [f] ImmutableMap.empty m h').2.1 k rfl hk
    rcases List.mem_singleton.mp hf' with hf'
    rw [← hf']
    exact ho

/-- Witness for C8: the store `{a ↦ true}` returned by
`solve [Literal("a", true)]` from a run on the empty worklist keeps its
binding, and the variable `a` bound by `solve_one (Literal("a", true))`
occurs in that formula. -/
theorem solve_extends_and_new_vars_witness :
    (ImmutableMap.empty.add "a" true).get "a" = some true ∧
    occursIn "a" (Expr.Literal "a" true) = true := by
  have hnil : solve [] (ImmutableMap.empty.add "a" true)
      = some (ImmutableMap.empty.add "a" true) := by rw [solve]
  have hfuel : solveFuel 2 [Expr.Literal "a" true] ImmutableMap.empty
      = some (some (ImmutableMap.empty.add "a" true)) := rfl
  have hone : solve_one (Expr.Literal "a" true) = some (ImmutableMap.empty.add "a" true) :=
    solve_eq_of_fuel hfuel (by decide)
  exact ⟨((solve_extends_and_new_vars.1 [] (ImmutableMap.empty.add "a" true)
      (ImmutableMap.empty.add "a" true) hnil).1 "a" true rfl),
    solve_extends_and_new_vars.2 (Expr.Literal "a" true)
      (ImmutableMap.empty.add "a" true) hone "a" rfl⟩

/-- Claim C9 (confirmed): querying `get` on a variable not contained in
the store fails (the KeyError, modelled `none`, distinct from every
recorded value), and this error is never folded into the
Unsatisfiable/Conflict outcome: `add_literal` returns the conflict
signal only when the variable is bound to the opposite value (so its
`get` succeeded), and on an unbound variable it extends the store
without consulting `get`'s error branch. -/
theorem get_unbound_is_error :
    (∀ (m : ImmutableMap) (k : String), m.contains k = false → m.get k = none) ∧
    (∀ (m : ImmutableMap) (v : String) (b : Bool), add_literal m v b = none →
      m.contains v = true ∧ m.get v = some (!b)) ∧
    (∀ (m : ImmutableMap) (v : String) (b : Bool), m.contains v = false →
      add_literal m v b = some (m.add v b)) := by
  refine ⟨?_, ?_, ?_⟩
  · intro m k h
    exact ImmutableMap.get_none_of_not_contains h
  · intro m v b h
    unfold add_literal at h
    split at h
    · rename_i hc
      split at h
      · exact Option.noConfusion h
      · rename_i hg
        refine ⟨hc, ?_⟩
        obtain ⟨c, hcv⟩ := ImmutableMap.get_some_of_contains hc
        rw [hcv]
        rw [hcv] at hg
        cases c <;> cases b <;> simp_all
    · exact Option.noConfusion h
  · intro m v b h
    simp [add_literal, h]

/-- Witness for C9: `get` on the empty store fails for `z`; the conflict
`add_literal {x ↦ true} x false = Conflict` comes from a bound variable
with the opposite value; and `add_literal` on the unbound `y` extends the
empty store. -/
theorem get_unbound_is_error_witness :
    ImmutableMap.empty.get "z" = none ∧
    ((ImmutableMap.empty.add "x" true).contains "x" = true ∧
      (ImmutableMap.empty.add "x" true).get "x" = some (!false)) ∧
    add_literal ImmutableMap.empty "y" true = some (ImmutableMap.empty.add "y" true) :=
  ⟨get_unbound_is_error.1 ImmutableMap.empty "z" rfl,
   get_unbound_is_error.2.1 (ImmutableMap.empty.add "x" true) "x" false rfl,
   get_unbound_is_error.2.2 ImmutableMap.empty "y" true rfl⟩

/-- Claim C10 (confirmed): rendering is the canonical parenthesized infix
form.  A positive literal renders as the bare variable name, a negative
literal as the name prefixed with the negation marker `!`, And/Or render
as `"(" ++ left ++ " " ++ op ++ " " ++ right ++ ")"` with the distinct
two-character tokens `&&` and `||`, and the given example renders to
exactly `(p && (!q || r))`. -/
theorem render_canonical :
    (∀ v : String, Expr.render (Expr.Literal v true) = v) ∧
    (∀ v : String, Expr.render (Expr.Literal v false) = "!" ++ v) ∧
    (∀ l r : Expr, Expr.render (Expr.And l r)
      = "(" ++ Expr.render l ++ " " ++ "&&" ++ " " ++ Expr.render r ++ ")") ∧
    (∀ l r : Expr, Expr.render (Expr.Or l r)
      = "(" ++ Expr.render l ++ " " ++ "||" ++ " " ++ Expr.render r ++ ")") ∧
    "&&" ≠ "||" ∧ "&&".length = 2 ∧ "||".length = 2 ∧
    Expr.render (Expr.And (Expr.Literal "p" true)
      (Expr.Or (Expr.Literal "q" false) (Expr.Literal "r" true)))
      = "(p && (!q || r))" :=
  ⟨fun _ => rfl, fun _ => rfl, fun _ _ => rfl, fun _ _ => rfl,
   by decide, by decide, by decide, by decide⟩
